import Mathlib

/-!
Verification of the thin-http wrapper (src/src/lib.rs), a thin Rust wrapper
over the WinINet HTTP client.  The platform library is external, so each
platform call is modelled as an oracle input supplied to the embedded
function; everything else is translated directly from the source.
-/

namespace ThinHttp

/-! Section: Wide-string adapter (src/src/lib.rs, mod wide_string)

A Rust string slice is a sequence of Unicode scalar values, which is exactly
what Lean's Char / List Char is.  OsStr::encode_wide produces the UTF-16
code units of the string; From for WideString appends a single 0 unit. -/

/-- The UTF-16 code units of one Unicode scalar value. -/
def utf16EncodeChar (c : Char) : List Nat :=
  if c.toNat < 0x10000 then [c.toNat]
  else [0xD800 + (c.toNat - 0x10000) / 0x400, 0xDC00 + (c.toNat - 0x10000) % 0x400]

/-- Standard UTF-16 encoding of a string (as OsStr::encode_wide does). -/
def utf16Encode (s : List Char) : List Nat :=
  (s.map utf16EncodeChar).flatten

/-- Embedding of WideString::from: the UTF-16 code units of the input with a
single 0 code unit appended (encode_wide().chain(Some(0))). -/
def wideStringFrom (s : List Char) : List Nat :=
  utf16Encode s ++ [0]

/-- Standard UTF-16 decoder, used to state the round-trip property. -/
def utf16Decode : List Nat → Option (List Char)
  | [] => some []
  | u :: rest =>
    if 0xD800 ≤ u ∧ u ≤ 0xDFFF then
      rest.head?.bind (fun w =>
        if u ≤ 0xDBFF ∧ 0xDC00 ≤ w ∧ w ≤ 0xDFFF then
          (utf16Decode rest.tail).map
            (fun cs => Char.ofNat (0x10000 + (u - 0xD800) * 0x400 + (w - 0xDC00)) :: cs)
        else none)
    else if u ≤ 0xFFFF then
      (utf16Decode rest).map (fun cs => Char.ofNat u :: cs)
    else none
termination_by l => l.length
decreasing_by
· simp [List.length_tail]; omega
· simp

/-- Length of the run of zero code units at the end of a buffer. -/
def trailingZeroRun (l : List Nat) : Nat :=
  (l.reverse.takeWhile (fun u => u == 0)).length

theorem utf16Decode_encode (s : List Char) :
    utf16Decode (utf16Encode s) = some s := by
  induction s with
  | nil => simp [utf16Encode, utf16Decode]
  | cons c cs ih =>
    have hv : c.toNat < 0xD800 ∨ (0xDFFF < c.toNat ∧ c.toNat < 0x110000) := c.valid
    unfold utf16Encode at ih ⊢
    rw [List.map_cons, List.flatten_cons]
    by_cases hb : c.toNat < 0x10000
    · have hns : ¬(0xD800 ≤ c.toNat ∧ c.toNat ≤ 0xDFFF) := by omega
      rw [utf16EncodeChar, if_pos hb]
      show utf16Decode (c.toNat :: (cs.map utf16EncodeChar).flatten) = _
      rw [utf16Decode, if_neg hns, if_pos (by omega), ih, Option.map_some', Char.ofNat_toNat]
    · have hge : 0x10000 ≤ c.toNat := by omega
      have hlt : c.toNat < 0x110000 := by omega
      rw [utf16EncodeChar, if_neg hb]
      show utf16Decode (_ :: _ :: (cs.map utf16EncodeChar).flatten) = _
      have hdiv : (c.toNat - 0x10000) / 0x400 < 0x400 := by
        apply Nat.div_lt_of_lt_mul; omega
      have hmod : (c.toNat - 0x10000) % 0x400 < 0x400 := Nat.mod_lt _ (by omega)
      rw [utf16Decode, if_pos (by omega)]
      rw [List.head?_cons, Option.some_bind, if_pos (by omega), List.tail_cons, ih,
        Option.map_some']
      have hre : 0x10000 + (0xD800 + (c.toNat - 0x10000) / 0x400 - 0xD800) * 0x400
          + (0xDC00 + (c.toNat - 0x10000) % 0x400 - 0xDC00) = c.toNat := by
        have := Nat.div_add_mod (c.toNat - 0x10000) 0x400
        omega
      rw [hre, Char.ofNat_toNat]

/-! Section: Platform constants (values of the winapi wininet constants used) -/

def INTERNET_OPEN_TYPE_PRECONFIG : Nat := 0

def INTERNET_OPEN_TYPE_DIRECT : Nat := 1

def INTERNET_OPEN_TYPE_PROXY : Nat := 3

def INTERNET_OPEN_TYPE_PRECONFIG_WITH_NO_AUTOPROXY : Nat := 4

def INTERNET_FLAG_RELOAD : Nat := 0x80000000

def INTERNET_FLAG_RAW_DATA : Nat := 0x40000000

def INTERNET_FLAG_SECURE : Nat := 0x00800000

def INTERNET_FLAG_DONT_CACHE : Nat := 0x04000000

/-! Section: Session and Response wrappers (struct Internet, struct Response)

Native handles are modelled as Nat, with 0 as the null handle.  Each platform
call is an oracle input: the caller of the embedded function supplies what the
platform would return, and the function records the arguments it passed. -/

/-- Embedding of struct Internet: wraps one native session handle. -/
structure Internet where
  handle : Nat
deriving DecidableEq

/-- Embedding of struct Response: wraps one native request handle. -/
structure Response where
  handle : Nat
deriving DecidableEq

/-- The arguments the source passes to InternetOpenW. -/
structure OpenCall where
  agent : List Nat
  accessType : Nat
  proxyName : Option (List Nat)
  proxyBypass : Option (List Nat)
  flags : Nat
deriving DecidableEq

/-- Embedding of Internet::open.  `ret` is the oracle input: the handle value
the platform call returns (0 for null).  Returns the recorded platform call
and the wrapper the source returns. -/
def Internet.open (agent : List Char) (proxy : Option (List Char)) (ret : Nat) :
    OpenCall × Option Internet :=
  let call : OpenCall :=
    { agent := wideStringFrom agent
      accessType :=
        match proxy with
        | some _ => INTERNET_OPEN_TYPE_PROXY
        | none => INTERNET_OPEN_TYPE_DIRECT
      proxyName :=
        match proxy with
        | some proxyname => some (wideStringFrom proxyname)
        | none => none
      proxyBypass := none
      flags := 0 }
  (call, if ret = 0 then none else some ⟨ret⟩)

/-- The arguments the source passes to InternetOpenUrlW.  The fourth argument
(the source passes the literal 0xFFFFFFFF) is the selector the spec's platform
contract describes as the infinite timeout. -/
structure GetCall where
  handle : Nat
  url : List Nat
  headers : Option (List Nat)
  timeout : Nat
  flags : Nat
  context : Nat
deriving DecidableEq

/-- Embedding of Internet::get.  `ret` is the handle the platform returns. -/
def Internet.get (i : Internet) (url : List Char) (headers : Option (List Char)) (ret : Nat) :
    GetCall × Option Response :=
  let call : GetCall :=
    { handle := i.handle
      url := wideStringFrom url
      headers :=
        match headers with
        | some hs => some (wideStringFrom hs)
        | none => none
      timeout := 0xFFFFFFFF
      flags := INTERNET_FLAG_RELOAD ||| INTERNET_FLAG_DONT_CACHE |||
        INTERNET_FLAG_RAW_DATA ||| INTERNET_FLAG_SECURE
      context := 0 }
  (call, if ret = 0 then none else some ⟨ret⟩)

/-! Section: Response::status -/

/-- Oracle for one HttpQueryInfoW call: whether it succeeds, and the value it
writes into the caller's buffer (none when it writes nothing). -/
structure QueryOutcome where
  success : Bool
  written : Option Nat
deriving DecidableEq

/-- What the platform leaves in a caller buffer that held `buffer` before the
HttpQueryInfoW call. -/
def httpQueryInfoW (buffer : Nat) (o : QueryOutcome) : Nat :=
  match o.written with
  | some v => v
  | none => buffer

/-- Embedding of Response::status: a status variable initialized to 0 is
handed to the platform query and returned unconditionally; the call's own
success flag is never inspected. -/
def Response.status (o : QueryOutcome) : Nat :=
  httpQueryInfoW 0 o

/-! Section: Byte iterator (struct Bytes, impl Iterator for Bytes) -/

def BUFFER_SIZE : Nat := 1000

/-- Oracle for one InternetReadFile call: its success flag and the bytes it
writes at the start of the caller's buffer (read_size = bytes.length). -/
structure ReadResult where
  success : Bool
  bytes : List Nat
deriving DecidableEq

/-- The iterator state: internal buffer, cursor, valid-byte count, plus the
scripted outcomes of the pending platform reads (consumed in order). -/
structure BytesState where
  buf : List Nat
  index : Nat
  size : Nat
  reads : List ReadResult
deriving DecidableEq

/-- Observation of one issued InternetReadFile call: the capacity requested,
the success flag reported, and the byte count delivered. -/
structure ReadObs where
  requested : Nat
  success : Bool
  delivered : Nat
deriving DecidableEq

/-- One next() call's full outcome: the returned item, the successor state,
the platform read issued (if any) and the buffer index accessed (if any). -/
structure NextResult where
  value : Option Nat
  state : BytesState
  readCall : Option ReadObs
  accessed : Option Nat
deriving DecidableEq

/-- The platform's response to a read: the next scripted outcome; once the
script is exhausted the platform keeps reporting the persistent end-of-stream
signal (success with zero bytes). -/
def platformRead : List ReadResult → ReadResult × List ReadResult
  | [] => (⟨true, []⟩, [])
  | r :: rest => (r, rest)

/-- Embedding of Bytes::new: zeroed buffer, index 0, size 0. -/
def Bytes.new (reads : List ReadResult) : BytesState :=
  ⟨List.replicate BUFFER_SIZE 0, 0, 0, reads⟩

/-- Embedding of Bytes::next.  When index >= size it issues one read of up to
BUFFER_SIZE bytes, records read_size into size and resets index to 0; it then
returns None exactly when result was nonzero and read_size zero, otherwise the
byte at the cursor, and finally increments the cursor. -/
def Bytes.next (st : BytesState) : NextResult :=
  if st.size ≤ st.index then
    let r := (platformRead st.reads).1
    let buf1 := r.bytes ++ st.buf.drop r.bytes.length
    let st1 : BytesState := ⟨buf1, 1, r.bytes.length, (platformRead st.reads).2⟩
    if r.success = true ∧ r.bytes.length = 0 then
      ⟨none, st1, some ⟨BUFFER_SIZE, r.success, r.bytes.length⟩, none⟩
    else
      ⟨some (buf1.getD 0 0), st1, some ⟨BUFFER_SIZE, r.success, r.bytes.length⟩, some 0⟩
  else
    ⟨some (st.buf.getD st.index 0), ⟨st.buf, st.index + 1, st.size, st.reads⟩,
      none, some st.index⟩

/-- Iterate next(), collecting the produced bytes until the first None; also
returns the state at that point.  Fuel bounds the number of steps. -/
def drainS : Nat → BytesState → List Nat × BytesState
  | 0, st => ([], st)
  | fuel + 1, st =>
    match (Bytes.next st).value with
    | none => ([], (Bytes.next st).state)
    | some b =>
      let p := drainS fuel (Bytes.next st).state
      (b :: p.1, p.2)

/-- The successor state of one next() call. -/
def nextState (st : BytesState) : BytesState :=
  (Bytes.next st).state

/-- The platform read script for a response body delivered in order: each
read succeeds and delivers the next chunk of up to BUFFER_SIZE bytes. -/
def chunkReads : List Nat → List ReadResult
  | [] => []
  | b :: body =>
    ⟨true, (b :: body).take BUFFER_SIZE⟩ :: chunkReads ((b :: body).drop BUFFER_SIZE)
termination_by l => l.length
decreasing_by
simp [BUFFER_SIZE]
omega

theorem chunkReads_nil : chunkReads [] = [] := by
  rw [chunkReads]

theorem chunkReads_cons (x : Nat) (l : List Nat) :
    chunkReads (x :: l) =
      ⟨true, (x :: l).take BUFFER_SIZE⟩ :: chunkReads ((x :: l).drop BUFFER_SIZE) := by
  rw [chunkReads]

/-! Section: Platform-call traces (for the handle release discipline)

Rust ownership makes both wrappers move-only (neither derives Copy or Clone)
and runs Drop exactly once at end of life; a wrapper's life is therefore a
construction, a finite sequence of borrowed-reference method calls, and one
destruction.  Each step's platform calls are taken from the source. -/

inductive PlatformCall where
  | openSession (c : OpenCall)
  | openUrl (c : GetCall)
  | readFile (h : Nat) (capacity : Nat)
  | queryInfo (h : Nat)
  | closeHandle (h : Nat)
deriving DecidableEq

def PlatformCall.isClose : PlatformCall → Bool
  | .closeHandle _ => true
  | _ => false

/-- The borrowed-reference operations available on a live Response. -/
inductive ResponseOp where
  | statusQuery (o : QueryOutcome)
  | asBytes
  | next (st : BytesState)
deriving DecidableEq

/-- Platform calls one Response operation issues: status() calls
HttpQueryInfoW, as_bytes() calls nothing, next() calls InternetReadFile only
on a refill. -/
def ResponseOp.trace (r : Response) : ResponseOp → List PlatformCall
  | .statusQuery _ => [.queryInfo r.handle]
  | .asBytes => []
  | .next st => if st.size ≤ st.index then [.readFile r.handle BUFFER_SIZE] else []

/-- Platform calls of impl Drop for Response. -/
def Response.dropTrace (r : Response) : List PlatformCall :=
  [.closeHandle r.handle]

/-- All platform calls over a Response wrapper's life. -/
def Response.lifeTrace (r : Response) (ops : List ResponseOp) : List PlatformCall :=
  (ops.map (ResponseOp.trace r)).flatten ++ Response.dropTrace r

/-- The borrowed-reference operations available on a live Internet session. -/
inductive InternetOp where
  | get (url : List Char) (headers : Option (List Char)) (ret : Nat)

def InternetOp.trace (i : Internet) : InternetOp → List PlatformCall
  | .get url headers ret => [.openUrl (Internet.get i url headers ret).1]

/-- Platform calls of impl Drop for Internet. -/
def Internet.dropTrace (i : Internet) : List PlatformCall :=
  [.closeHandle i.handle]

/-- All platform calls over an Internet wrapper's life, from the constructing
Internet::open call to destruction.  When open fails no wrapper exists and
only the open call happens. -/
def Internet.lifeTrace (agent : List Char) (proxy : Option (List Char)) (ret : Nat)
    (ops : List InternetOp) : List PlatformCall :=
  match (Internet.open agent proxy ret).2 with
  | none => [.openSession (Internet.open agent proxy ret).1]
  | some i => .openSession (Internet.open agent proxy ret).1 ::
      ((ops.map (InternetOp.trace i)).flatten ++ Internet.dropTrace i)

/-! Section: Theorems -/

/-- C4: Internet::open and Internet::get return None exactly when the
platform call returns the null handle, and otherwise a wrapper holding
exactly that handle; nothing else (no error code) is surfaced. -/
theorem open_get_null_handle_failure (agent url : List Char)
    (proxy headers : Option (List Char)) (ret : Nat) (i : Internet) :
    ((Internet.open agent proxy ret).2 = none ↔ ret = 0)
    ∧ (ret ≠ 0 → (Internet.open agent proxy ret).2 = some ⟨ret⟩)
    ∧ ((Internet.get i url headers ret).2 = none ↔ ret = 0)
    ∧ (ret ≠ 0 → (Internet.get i url headers ret).2 = some ⟨ret⟩) := by
  refine ⟨?_, ?_, ?_, ?_⟩
  · simp [Internet.open]
  · intro h; simp [Internet.open, h]
  · simp [Internet.get]
  · intro h; simp [Internet.get, h]

theorem open_get_null_handle_failure_witness :
    (Internet.open [] none 7).2 = some ⟨7⟩ ∧ (Internet.open [] none 0).2 = none :=
  ⟨(open_get_null_handle_failure [] [] none none 7 ⟨7⟩).2.1 (by decide),
   (open_get_null_handle_failure [] [] none none 0 ⟨7⟩).1.mpr rfl⟩

/-- C5: Internet::open passes the proxy access type and the given proxy
address when a proxy is supplied, and the direct access type with a null
proxy name otherwise; the preconfigured access types are never passed. -/
theorem open_access_type (agent p : List Char) (proxy : Option (List Char)) (ret : Nat) :
    ((Internet.open agent (some p) ret).1.accessType = INTERNET_OPEN_TYPE_PROXY
      ∧ (Internet.open agent (some p) ret).1.proxyName = some (wideStringFrom p))
    ∧ ((Internet.open agent none ret).1.accessType = INTERNET_OPEN_TYPE_DIRECT
      ∧ (Internet.open agent none ret).1.proxyName = none)
    ∧ (Internet.open agent proxy ret).1.accessType ≠ INTERNET_OPEN_TYPE_PRECONFIG
    ∧ (Internet.open agent proxy ret).1.accessType ≠
        INTERNET_OPEN_TYPE_PRECONFIG_WITH_NO_AUTOPROXY := by
  refine ⟨⟨rfl, rfl⟩, ⟨rfl, rfl⟩, ?_, ?_⟩ <;> cases proxy <;>
    simp [Internet.open, INTERNET_OPEN_TYPE_PROXY, INTERNET_OPEN_TYPE_DIRECT,
      INTERNET_OPEN_TYPE_PRECONFIG, INTERNET_OPEN_TYPE_PRECONFIG_WITH_NO_AUTOPROXY]

/-- C6: Internet::get always passes exactly the flag combination
reload, dont-cache, raw-data, secure (numerically 0xC4800000) and the
0xFFFFFFFF (infinite) timeout selector. -/
theorem get_flags_and_timeout (i : Internet) (url : List Char)
    (headers : Option (List Char)) (ret : Nat) :
    (Internet.get i url headers ret).1.flags =
      (INTERNET_FLAG_RELOAD ||| INTERNET_FLAG_DONT_CACHE |||
        INTERNET_FLAG_RAW_DATA ||| INTERNET_FLAG_SECURE)
    ∧ (Internet.get i url headers ret).1.flags = 0xC4800000
    ∧ (Internet.get i url headers ret).1.timeout = 0xFFFFFFFF := by
  refine ⟨rfl, ?_, rfl⟩
  show (INTERNET_FLAG_RELOAD ||| INTERNET_FLAG_DONT_CACHE |||
    INTERNET_FLAG_RAW_DATA ||| INTERNET_FLAG_SECURE) = 0xC4800000
  decide

/-- C8: Response::status never inspects the query call's success flag: the
returned value is whatever the platform wrote, or the initialized value 0
when it wrote nothing. -/
theorem status_ignores_success (o : QueryOutcome) (c : Nat) :
    (o.written = some c → Response.status o = c)
    ∧ (o.written = none → Response.status o = 0)
    ∧ ∀ o2 : QueryOutcome, o.written = o2.written → Response.status o = Response.status o2 := by
  refine ⟨?_, ?_, ?_⟩
  · intro h; simp [Response.status, httpQueryInfoW, h]
  · intro h; simp [Response.status, httpQueryInfoW, h]
  · intro o2 h; simp [Response.status, httpQueryInfoW, h]

theorem status_ignores_success_witness :
    Response.status ⟨false, some 404⟩ = 404 ∧ Response.status ⟨false, none⟩ = 0 :=
  ⟨(status_ignores_success ⟨false, some 404⟩ 404).1 rfl,
   (status_ignores_success ⟨false, none⟩ 404).2.1 rfl⟩

theorem utf16Encode_cons (c : Char) (cs : List Char) :
    utf16Encode (c :: cs) = utf16EncodeChar c ++ utf16Encode cs := by
  simp [utf16Encode]

theorem utf16EncodeChar_ne_nil (c : Char) : utf16EncodeChar c ≠ [] := by
  unfold utf16EncodeChar
  by_cases hb : c.toNat < 0x10000 <;> simp [hb]

theorem utf16EncodeChar_getLast?_ne_zero (c : Char) (hc : c ≠ Char.ofNat 0) :
    (utf16EncodeChar c).getLast? ≠ some 0 := by
  unfold utf16EncodeChar
  by_cases hb : c.toNat < 0x10000
  · simp only [hb, if_pos, List.getLast?_singleton, ne_eq, Option.some.injEq]
    intro h
    apply hc
    have h2 := Char.ofNat_toNat c
    rw [h] at h2
    exact h2.symm
  · simp only [hb, if_neg, not_false_iff, List.getLast?_cons_cons, List.getLast?_singleton,
      ne_eq, Option.some.injEq]
    omega

theorem utf16Encode_getLast?_ne_zero (s : List Char) (hne : s ≠ [])
    (h0 : s.getLast? ≠ some (Char.ofNat 0)) : (utf16Encode s).getLast? ≠ some 0 := by
  induction s with
  | nil => exact absurd rfl hne
  | cons c cs ih =>
    cases cs with
    | nil =>
      rw [utf16Encode_cons]
      simp only [utf16Encode, List.map_nil, List.flatten_nil, List.append_nil]
      exact utf16EncodeChar_getLast?_ne_zero c (by simpa using h0)
    | cons c2 cs2 =>
      rw [utf16Encode_cons, List.getLast?_append]
      have h2 : (utf16Encode (c2 :: cs2)).getLast? ≠ some 0 :=
        ih (by simp) (by simpa using h0)
      cases hg : (utf16Encode (c2 :: cs2)).getLast? with
      | none =>
        exfalso
        have : utf16Encode (c2 :: cs2) ≠ [] := by
          rw [utf16Encode_cons]
          intro hnil
          exact utf16EncodeChar_ne_nil c2 (List.append_eq_nil.mp hnil).1
        rw [List.getLast?_eq_none_iff] at hg
        exact this hg
      | some a =>
        rw [hg] at h2
        simpa using h2

theorem trailingZeroRun_concat_zero (l : List Nat) (h : l.getLast? ≠ some 0) :
    trailingZeroRun (l ++ [0]) = 1 := by
  unfold trailingZeroRun
  rw [List.reverse_append]
  show ((0 :: l.reverse).takeWhile (fun u => u == 0)).length = 1
  rw [List.takeWhile_cons_of_pos (by simp)]
  cases hrev : l.reverse with
  | nil => simp
  | cons a t =>
    have ha : a ≠ 0 := by
      intro h0
      apply h
      rw [← List.head?_reverse, hrev, h0]
      rfl
    rw [List.takeWhile_cons_of_neg (by simpa using ha)]
    simp

/-- C7 counterexample: on the one-character string consisting of the NUL
scalar value, the adapter's output is [0, 0], which does not end with exactly
one trailing zero code unit. -/
theorem wideString_trailing_zero_counterexample :
    ¬ trailingZeroRun (wideStringFrom [Char.ofNat 0]) = 1 := by decide

/-- C7 (amended): the adapter's output is the UTF-16 encoding of the input
followed by one appended zero code unit, so it ends with a zero unit, the
prefix before the final unit is the standard UTF-16 encoding and decodes back
to the input; the trailing zero run has length exactly one whenever the input
does not end with the NUL character. -/
theorem wideString_from_spec (s : List Char) :
    (wideStringFrom s).getLast? = some 0
    ∧ (wideStringFrom s).dropLast = utf16Encode s
    ∧ utf16Decode ((wideStringFrom s).dropLast) = some s
    ∧ ((s = [] ∨ s.getLast? ≠ some (Char.ofNat 0)) →
        trailingZeroRun (wideStringFrom s) = 1) := by
  refine ⟨List.getLast?_concat _, by simp [wideStringFrom], ?_, ?_⟩
  · rw [wideStringFrom, List.dropLast_concat]
    exact utf16Decode_encode s
  · intro h
    apply trailingZeroRun_concat_zero
    rcases h with h | h
    · subst h
      simp [utf16Encode]
    · by_cases hne : s = []
      · subst hne
        simp [utf16Encode]
      · exact utf16Encode_getLast?_ne_zero s hne h

theorem wideString_from_spec_witness :
    trailingZeroRun (wideStringFrom [Char.ofNat 104, Char.ofNat 105]) = 1 :=
  (wideString_from_spec [Char.ofNat 104, Char.ofNat 105]).2.2.2 (Or.inr (by decide))

/-- C1: next() issues a platform read exactly when the cursor has consumed
all buffered bytes; that read requests BUFFER_SIZE = 1000 bytes, its
delivered count is recorded as the new size, the cursor is reset to the
buffer start (the delivered byte, if any, is read at index 0 and the cursor
ends at 1); and next() returns no item exactly when the issued read reports
success with zero bytes delivered. -/
theorem bytes_next_eq_of_deliver (st : BytesState) (hlt : ¬ st.size ≤ st.index) :
    Bytes.next st = ⟨some (st.buf.getD st.index 0),
      ⟨st.buf, st.index + 1, st.size, st.reads⟩, none, some st.index⟩ := by
  simp only [Bytes.next]
  rw [if_neg hlt]

theorem bytes_next_eq_of_refill_end (st : BytesState) (hex : st.size ≤ st.index)
    (hend : (platformRead st.reads).1.success = true
      ∧ (platformRead st.reads).1.bytes.length = 0) :
    Bytes.next st = ⟨none,
      ⟨(platformRead st.reads).1.bytes
          ++ st.buf.drop (platformRead st.reads).1.bytes.length, 1,
        (platformRead st.reads).1.bytes.length, (platformRead st.reads).2⟩,
      some ⟨BUFFER_SIZE, (platformRead st.reads).1.success,
        (platformRead st.reads).1.bytes.length⟩, none⟩ := by
  simp only [Bytes.next]
  rw [if_pos hex, if_pos hend]

theorem bytes_next_eq_of_refill_deliver (st : BytesState) (hex : st.size ≤ st.index)
    (hnend : ¬((platformRead st.reads).1.success = true
      ∧ (platformRead st.reads).1.bytes.length = 0)) :
    Bytes.next st = ⟨some (((platformRead st.reads).1.bytes
        ++ st.buf.drop (platformRead st.reads).1.bytes.length).getD 0 0),
      ⟨(platformRead st.reads).1.bytes
          ++ st.buf.drop (platformRead st.reads).1.bytes.length, 1,
        (platformRead st.reads).1.bytes.length, (platformRead st.reads).2⟩,
      some ⟨BUFFER_SIZE, (platformRead st.reads).1.success,
        (platformRead st.reads).1.bytes.length⟩, some 0⟩ := by
  simp only [Bytes.next]
  rw [if_pos hex, if_neg hnend]

theorem bytes_next_refill_spec (st : BytesState) :
    ((Bytes.next st).readCall.isSome = true ↔ st.size ≤ st.index)
    ∧ (∀ o : ReadObs, (Bytes.next st).readCall = some o →
        o.requested = BUFFER_SIZE ∧ o.requested ≤ 1000
        ∧ (Bytes.next st).state.size = o.delivered
        ∧ (Bytes.next st).state.index = 1
        ∧ ((Bytes.next st).accessed = none ∨ (Bytes.next st).accessed = some 0))
    ∧ ((Bytes.next st).value = none ↔
        ∃ o : ReadObs, (Bytes.next st).readCall = some o ∧ o.success = true
          ∧ o.delivered = 0) := by
  by_cases hex : st.size ≤ st.index
  · by_cases hend : (platformRead st.reads).1.success = true
        ∧ (platformRead st.reads).1.bytes.length = 0
    · rw [bytes_next_eq_of_refill_end st hex hend]
      refine ⟨by simpa using hex, ?_, ?_⟩
      · intro o ho
        simp only [Option.some.injEq] at ho
        subst ho
        exact ⟨rfl, by simp [BUFFER_SIZE], rfl, rfl, Or.inl rfl⟩
      · simp only [true_iff]
        exact ⟨_, rfl, hend.1, hend.2⟩
    · rw [bytes_next_eq_of_refill_deliver st hex hend]
      refine ⟨by simpa using hex, ?_, ?_⟩
      · intro o ho
        simp only [Option.some.injEq] at ho
        subst ho
        exact ⟨rfl, by simp [BUFFER_SIZE], rfl, rfl, Or.inr rfl⟩
      · constructor
        · intro h
          simp at h
        · rintro ⟨o, ho, hs, hd⟩
          simp only [Option.some.injEq] at ho
          subst ho
          exact absurd ⟨hs, hd⟩ hend
  · rw [bytes_next_eq_of_deliver st hex]
    refine ⟨by simp [hex], ?_, ?_⟩
    · intro o ho
      simp at ho
    · simp

theorem bytes_next_refill_spec_witness :
    (Bytes.next (Bytes.new [])).state.index = 1 :=
  ((bytes_next_refill_spec (Bytes.new [])).2.1 ⟨BUFFER_SIZE, true, 0⟩ rfl).2.2.2.1

/-- C2: when a refill happens and the platform read fails, next() still
returns a byte (taken from the buffer as the failed call left it; with zero
bytes delivered this is the stale/zero buffer) instead of ending the
sequence or signaling an error. -/
theorem bytes_next_failed_read (st : BytesState) (r : ReadResult) (rest : List ReadResult)
    (hexh : st.size ≤ st.index) (hreads : st.reads = r :: rest)
    (hfail : r.success = false) :
    (Bytes.next st).value = some ((r.bytes ++ st.buf.drop r.bytes.length).getD 0 0)
    ∧ (Bytes.next st).value.isSome = true
    ∧ (r.bytes = [] → (Bytes.next st).value = some (st.buf.getD 0 0)) := by
  have hplat : platformRead st.reads = (r, rest) := by rw [hreads]; rfl
  have hcond : ¬((platformRead st.reads).1.success = true
      ∧ (platformRead st.reads).1.bytes.length = 0) := by
    rw [hplat]
    simp [hfail]
  have hnext := bytes_next_eq_of_refill_deliver st hexh hcond
  rw [hplat] at hnext
  refine ⟨?_, ?_, ?_⟩
  · rw [hnext]
  · rw [hnext]
    rfl
  · intro hb
    rw [hnext]
    simp [hb]

theorem bytes_next_failed_read_witness :
    (Bytes.next ⟨[5], 0, 0, [⟨false, []⟩]⟩).value = some 5 := by
  have h := (bytes_next_failed_read ⟨[5], 0, 0, [⟨false, []⟩]⟩ ⟨false, []⟩ []
    (le_refl 0) rfl rfl).2.2 rfl
  simpa using h

/-- Every scripted read delivers at most BUFFER_SIZE bytes. -/
def boundedReads (reads : List ReadResult) : Prop :=
  ∀ r ∈ reads, r.bytes.length ≤ BUFFER_SIZE

/-- States reachable from Bytes::new under bounded reads: full-size buffer,
valid-byte count within the buffer, bounded pending reads. -/
def WFState (st : BytesState) : Prop :=
  st.buf.length = BUFFER_SIZE ∧ st.size ≤ BUFFER_SIZE ∧ boundedReads st.reads

/-- C10: under the precondition that each platform read writes at most the
requested 1000 bytes, every buffer access next() performs is at an index
strictly below 1000, and well-formedness is preserved (the initial state
Bytes::new is well-formed), so indexing never goes out of bounds. -/
theorem bytes_next_in_bounds (st : BytesState) (hwf : WFState st) :
    (∀ i, (Bytes.next st).accessed = some i → i < BUFFER_SIZE)
    ∧ WFState (Bytes.next st).state
    ∧ (∀ reads, boundedReads reads → WFState (Bytes.new reads)) := by
  obtain ⟨hbuf, hsize, hreads⟩ := hwf
  have hthird : ∀ reads, boundedReads reads → WFState (Bytes.new reads) := by
    intro reads hr
    exact ⟨by simp [Bytes.new], by simp [Bytes.new], by simpa [Bytes.new] using hr⟩
  by_cases hex : st.size ≤ st.index
  · have hrlen : (platformRead st.reads).1.bytes.length ≤ BUFFER_SIZE := by
      cases hr : st.reads with
      | nil => simp [platformRead]
      | cons a t =>
        have := hreads a (by rw [hr]; exact List.mem_cons_self a t)
        simpa [platformRead] using this
    have hresttl : boundedReads (platformRead st.reads).2 := by
      cases hr : st.reads with
      | nil => intro r hr2; simp [platformRead] at hr2
      | cons a t =>
        intro r hr2
        apply hreads
        rw [hr]
        simp only [platformRead] at hr2
        exact List.mem_cons_of_mem a hr2
    have hlen1 : ((platformRead st.reads).1.bytes
        ++ st.buf.drop (platformRead st.reads).1.bytes.length).length = BUFFER_SIZE := by
      simp only [List.length_append, List.length_drop, hbuf]
      omega
    by_cases hend : (platformRead st.reads).1.success = true
        ∧ (platformRead st.reads).1.bytes.length = 0
    · have hnext := bytes_next_eq_of_refill_end st hex hend
      refine ⟨?_, ?_, hthird⟩
      · intro i hi
        rw [hnext] at hi
        simp at hi
      · rw [hnext]
        exact ⟨hlen1, hrlen, hresttl⟩
    · have hnext := bytes_next_eq_of_refill_deliver st hex hend
      refine ⟨?_, ?_, hthird⟩
      · intro i hi
        rw [hnext] at hi
        simp at hi
        have hpos : 0 < BUFFER_SIZE := by decide
        omega
      · rw [hnext]
        exact ⟨hlen1, hrlen, hresttl⟩
  · have hnext := bytes_next_eq_of_deliver st hex
    refine ⟨?_, ?_, hthird⟩
    · intro i hi
      rw [hnext] at hi
      simp at hi
      omega
    · rw [hnext]
      exact ⟨hbuf, hsize, hreads⟩

theorem bytes_next_in_bounds_witness : (0 : Nat) < BUFFER_SIZE :=
  (bytes_next_in_bounds (Bytes.new [⟨true, [7]⟩])
    ⟨by simp [Bytes.new], by simp [Bytes.new],
      by intro r hr; simp only [Bytes.new, List.mem_singleton] at hr; subst hr; decide⟩).1
    0 rfl

theorem responseOps_no_close (r : Response) (ops : List ResponseOp) :
    ((ops.map (ResponseOp.trace r)).flatten).filter PlatformCall.isClose = [] := by
  induction ops with
  | nil => rfl
  | cons op rest ih =>
    simp only [List.map_cons, List.flatten_cons, List.filter_append, ih, List.append_nil]
    cases op with
    | statusQuery o => rfl
    | asBytes => rfl
    | next st =>
      by_cases h : st.size ≤ st.index <;> simp [ResponseOp.trace, h, PlatformCall.isClose]

theorem internetOps_no_close (i : Internet) (ops : List InternetOp) :
    ((ops.map (InternetOp.trace i)).flatten).filter PlatformCall.isClose = [] := by
  induction ops with
  | nil => rfl
  | cons op rest ih =>
    simp only [List.map_cons, List.flatten_cons, List.filter_append, ih, List.append_nil]
    cases op with
    | get url headers ret => rfl

/-- C9: over a wrapper's whole life (construction, any sequence of
operations, one destruction) exactly one close-handle call appears in the
platform-call trace, it names the wrapped handle, and it is the final call;
no operation (open, get, status, as_bytes, next) ever closes.  When open
fails no close is ever issued. -/
theorem handle_closed_exactly_once (agent : List Char) (proxy : Option (List Char))
    (ret : Nat) (iops : List InternetOp) (r : Response) (rops : List ResponseOp) :
    (∀ i : Internet, (Internet.open agent proxy ret).2 = some i →
      (Internet.lifeTrace agent proxy ret iops).filter PlatformCall.isClose =
        [PlatformCall.closeHandle i.handle]
      ∧ (Internet.lifeTrace agent proxy ret iops).getLast? =
        some (PlatformCall.closeHandle i.handle))
    ∧ ((Internet.open agent proxy ret).2 = none →
      (Internet.lifeTrace agent proxy ret iops).filter PlatformCall.isClose = [])
    ∧ (Response.lifeTrace r rops).filter PlatformCall.isClose =
        [PlatformCall.closeHandle r.handle]
    ∧ (Response.lifeTrace r rops).getLast? =
        some (PlatformCall.closeHandle r.handle) := by
  refine ⟨?_, ?_, ?_, ?_⟩
  · intro i hi
    constructor
    · simp only [Internet.lifeTrace, hi, List.filter_cons, List.filter_append,
        internetOps_no_close, Internet.dropTrace]
      rfl
    · simp only [Internet.lifeTrace, hi, Internet.dropTrace, ← List.append_assoc]
      rw [show PlatformCall.openSession (Internet.open agent proxy ret).1 ::
        ((iops.map (InternetOp.trace i)).flatten ++ [PlatformCall.closeHandle i.handle]) =
        (PlatformCall.openSession (Internet.open agent proxy ret).1 ::
          (iops.map (InternetOp.trace i)).flatten) ++ [PlatformCall.closeHandle i.handle]
        from rfl]
      exact List.getLast?_concat _
  · intro hn
    simp only [Internet.lifeTrace, hn]
    rfl
  · simp only [Response.lifeTrace, List.filter_append, responseOps_no_close,
      Response.dropTrace]
    rfl
  · simp only [Response.lifeTrace, Response.dropTrace]
    exact List.getLast?_concat _

theorem handle_closed_exactly_once_witness :
    (Response.lifeTrace ⟨3⟩ [ResponseOp.asBytes]).filter PlatformCall.isClose =
      [PlatformCall.closeHandle 3] :=
  (handle_closed_exactly_once [] none 0 [] ⟨3⟩ [ResponseOp.asBytes]).2.2.1

theorem drainS_succ (fuel : Nat) (st : BytesState) :
    drainS (fuel + 1) st =
      match (Bytes.next st).value with
      | none => ([], (Bytes.next st).state)
      | some b => (b :: (drainS fuel (Bytes.next st).state).1,
          (drainS fuel (Bytes.next st).state).2) := rfl

theorem drainS_succ_none (fuel : Nat) (st : BytesState)
    (hv : (Bytes.next st).value = none) :
    drainS (fuel + 1) st = ([], (Bytes.next st).state) := by
  rw [drainS_succ, hv]

theorem drainS_succ_some (fuel : Nat) (st : BytesState) (b : Nat)
    (hv : (Bytes.next st).value = some b) :
    drainS (fuel + 1) st = (b :: (drainS fuel (Bytes.next st).state).1,
      (drainS fuel (Bytes.next st).state).2) := by
  rw [drainS_succ, hv]

theorem drainS_one_empty (st : BytesState) (hex : st.size ≤ st.index)
    (hr : st.reads = []) :
    drainS 1 st = ([], ⟨st.buf, 1, 0, []⟩) := by
  have hplat : platformRead st.reads = (⟨true, []⟩, []) := by rw [hr]; rfl
  have hend : (platformRead st.reads).1.success = true
      ∧ (platformRead st.reads).1.bytes.length = 0 := by
    rw [hplat]
    exact ⟨rfl, rfl⟩
  have hnext := bytes_next_eq_of_refill_end st hex hend
  rw [hplat] at hnext
  have hv : (Bytes.next st).value = none := by rw [hnext]
  rw [show (1 : Nat) = 0 + 1 from rfl, drainS_succ_none 0 st hv, hnext]
  simp

/-- Delivery phase: while the cursor is inside the buffered bytes, draining
hands out the buffered bytes one at a time without touching the platform. -/
theorem drainS_deliver (k : Nat) : ∀ (f : Nat) (st : BytesState),
    st.index + k = st.size → st.size ≤ st.buf.length →
    drainS (k + f) st =
      ((st.buf.drop st.index).take k
          ++ (drainS f ⟨st.buf, st.size, st.size, st.reads⟩).1,
        (drainS f ⟨st.buf, st.size, st.size, st.reads⟩).2) := by
  induction k with
  | zero =>
    intro f st hidx hsz
    obtain ⟨b, i, s, r⟩ := st
    simp only at hidx
    have hsi : s = i := by omega
    subst hsi
    rw [Nat.zero_add]
    simp
  | succ k ih =>
    intro f st hidx hsz
    obtain ⟨b, i, s, r⟩ := st
    simp only at hidx hsz
    have hnext := bytes_next_eq_of_deliver ⟨b, i, s, r⟩ (show ¬ s ≤ i by omega)
    have hv : (Bytes.next ⟨b, i, s, r⟩).value = some (b.getD i 0) := by rw [hnext]
    have hstate : (Bytes.next ⟨b, i, s, r⟩).state = ⟨b, i + 1, s, r⟩ := by rw [hnext]
    rw [show k + 1 + f = (k + f) + 1 from by omega]
    rw [drainS_succ_some (k + f) _ _ hv, hstate]
    rw [ih f ⟨b, i + 1, s, r⟩ (show i + 1 + k = s by omega) hsz]
    simp only [Prod.mk.injEq, and_true]
    have hib : i < b.length := by omega
    rw [List.drop_eq_getElem_cons hib, List.take_succ_cons, List.cons_append]
    congr 1
    simp [List.getElem?_eq_getElem hib]

theorem bytes_next_exhausted (st : BytesState) (hr : st.reads = [])
    (hex : st.size ≤ st.index) :
    (Bytes.next st).value = none
    ∧ (Bytes.next st).state.reads = []
    ∧ (Bytes.next st).state.size ≤ (Bytes.next st).state.index := by
  have hplat : platformRead st.reads = (⟨true, []⟩, []) := by rw [hr]; rfl
  have hend : (platformRead st.reads).1.success = true
      ∧ (platformRead st.reads).1.bytes.length = 0 := by
    rw [hplat]
    exact ⟨rfl, rfl⟩
  have hnext := bytes_next_eq_of_refill_end st hex hend
  rw [hplat] at hnext
  rw [hnext]
  exact ⟨rfl, rfl, by simp⟩

theorem drain_iterated_none (k : Nat) : ∀ (st : BytesState), st.reads = [] →
    st.size ≤ st.index → (Bytes.next (nextState^[k] st)).value = none := by
  induction k with
  | zero =>
    intro st hr hex
    simpa using (bytes_next_exhausted st hr hex).1
  | succ k ih =>
    intro st hr hex
    rw [Function.iterate_succ_apply]
    exact ih (nextState st) (bytes_next_exhausted st hr hex).2.1
      (bytes_next_exhausted st hr hex).2.2

/-- Draining a state whose pending reads script the body's chunks in order
yields exactly the body, and leaves an exhausted state. -/
theorem drainS_chunks (n : Nat) : ∀ (body : List Nat) (st : BytesState),
    body.length ≤ n → st.size ≤ st.index → st.reads = chunkReads body →
    (drainS (body.length + 1) st).1 = body
    ∧ (drainS (body.length + 1) st).2.reads = []
    ∧ (drainS (body.length + 1) st).2.size ≤ (drainS (body.length + 1) st).2.index := by
  induction n with
  | zero =>
    intro body st hlen hex hreads
    have hb : body = [] := List.eq_nil_of_length_eq_zero (Nat.le_zero.mp hlen)
    subst hb
    rw [show ([] : List Nat).length + 1 = 1 from rfl]
    rw [drainS_one_empty st hex (by rw [hreads, chunkReads_nil])]
    exact ⟨rfl, rfl, by simp⟩
  | succ n ih =>
    intro body st hlen hex hreads
    cases body with
    | nil =>
      rw [show ([] : List Nat).length + 1 = 1 from rfl]
      rw [drainS_one_empty st hex (by rw [hreads, chunkReads_nil])]
      exact ⟨rfl, rfl, by simp⟩
    | cons x body2 =>
      have hck : st.reads = ⟨true, (x :: body2).take BUFFER_SIZE⟩ ::
          chunkReads ((x :: body2).drop BUFFER_SIZE) := by
        rw [hreads, chunkReads_cons]
      have hplat : platformRead st.reads = (⟨true, (x :: body2).take BUFFER_SIZE⟩,
          chunkReads ((x :: body2).drop BUFFER_SIZE)) := by
        rw [hck]
        rfl
      have hcne : (x :: body2).take BUFFER_SIZE ≠ [] := by
        rw [show (x :: body2).take BUFFER_SIZE = x :: body2.take 999 from rfl]
        simp
      have hne0 : ¬((platformRead st.reads).1.success = true
          ∧ (platformRead st.reads).1.bytes.length = 0) := by
        rw [hplat]
        intro hcontra
        exact hcne (List.length_eq_zero.mp hcontra.2)
      have hnext := bytes_next_eq_of_refill_deliver st hex hne0
      rw [hplat] at hnext
      have hcx : (x :: body2).take BUFFER_SIZE = x :: body2.take 999 := rfl
      have hrest : (x :: body2).drop BUFFER_SIZE = body2.drop 999 := rfl
      rw [hcx, hrest] at hnext
      have hv : (Bytes.next st).value = some x := by
        rw [hnext]
        simp
      have hstate : (Bytes.next st).state =
          ⟨(x :: body2.take 999) ++ st.buf.drop (x :: body2.take 999).length, 1,
            (x :: body2.take 999).length, chunkReads (body2.drop 999)⟩ := by
        rw [hnext]
      have hkf : (body2.take 999).length + ((body2.drop 999).length + 1)
          = body2.length + 1 := by
        simp only [List.length_take, List.length_drop]
        omega
      have heq : drainS ((x :: body2).length + 1) st
          = (x :: ((((x :: body2.take 999) ++ st.buf.drop (x :: body2.take 999).length).drop
                1).take (body2.take 999).length
              ++ (drainS ((body2.drop 999).length + 1)
                ⟨(x :: body2.take 999) ++ st.buf.drop (x :: body2.take 999).length,
                  (x :: body2.take 999).length, (x :: body2.take 999).length,
                  chunkReads (body2.drop 999)⟩).1),
            (drainS ((body2.drop 999).length + 1)
              ⟨(x :: body2.take 999) ++ st.buf.drop (x :: body2.take 999).length,
                (x :: body2.take 999).length, (x :: body2.take 999).length,
                chunkReads (body2.drop 999)⟩).2) := by
        rw [show (x :: body2).length + 1 = (body2.length + 1) + 1 from by simp]
        rw [drainS_succ_some (body2.length + 1) st x hv, hstate]
        rw [← hkf]
        rw [drainS_deliver (body2.take 999).length ((body2.drop 999).length + 1)
          ⟨(x :: body2.take 999) ++ st.buf.drop (x :: body2.take 999).length, 1,
            (x :: body2.take 999).length, chunkReads (body2.drop 999)⟩
          (by simp only [List.length_cons, List.length_take, List.length_drop]; omega)
          (by simp only [List.length_cons, List.length_take, List.length_drop,
            List.length_append]; omega)]
      have hIH := ih (body2.drop 999)
        ⟨(x :: body2.take 999) ++ st.buf.drop (x :: body2.take 999).length,
          (x :: body2.take 999).length, (x :: body2.take 999).length,
          chunkReads (body2.drop 999)⟩
        (by simp only [List.length_drop, List.length_cons] at hlen ⊢; omega)
        (le_refl _) rfl
      refine ⟨?_, ?_, ?_⟩
      · rw [heq]
        show x :: _ = x :: body2
        rw [hIH.1]
        have hbd : ((x :: body2.take 999) ++ st.buf.drop (x :: body2.take 999).length).drop 1
            = body2.take 999 ++ st.buf.drop (x :: body2.take 999).length := by
          rw [List.cons_append]
          simp
        rw [hbd, List.take_left, List.take_append_drop]
      · rw [heq]
        exact hIH.2.1
      · rw [heq]
        exact hIH.2.2

/-- C3: for a body delivered by the platform in successive chunks of up to
1000 bytes followed by the persistent end-of-stream signal, draining the
iterator from Bytes::new yields exactly the body's bytes in order with the
body's length (for every body, in particular bodies whose length is an exact
multiple of 1000), and every next() call after exhaustion returns no item. -/
theorem drain_reconstructs_body (body : List Nat) :
    (drainS (body.length + 1) (Bytes.new (chunkReads body))).1 = body
    ∧ (drainS (body.length + 1) (Bytes.new (chunkReads body))).1.length = body.length
    ∧ ∀ k : Nat,
      (Bytes.next (nextState^[k]
        ((drainS (body.length + 1) (Bytes.new (chunkReads body))).2))).value = none := by
  have h := drainS_chunks body.length body (Bytes.new (chunkReads body)) (le_refl _)
    (by simp [Bytes.new]) rfl
  refine ⟨h.1, by rw [h.1], ?_⟩
  intro k
  exact drain_iterated_none k _ h.2.1 h.2.2

end ThinHttp
